import Mathlib

/-!
Verification of the box-constrained QP solver `BoxQP`
(include/crocoddyl/core/solvers/box-qp.hxx).

The solver is embedded shallowly over exact rationals: Eigen vectors become
`List ℚ`, Eigen matrices become row-major `List (List ℚ)`.  Eigen's LLT
(Cholesky) factorization-plus-solve is modelled in exact arithmetic by
symmetric Gaussian elimination on diagonal pivots, which fails exactly when a
pivot is non-positive, i.e. exactly when the symmetric input matrix is not
positive definite; this is the exact-arithmetic success condition of LLT.
-/

namespace BoxQPModel

abbrev Vec := List ℚ
abbrev Mat := List (List ℚ)

/-- Dot product of two coefficient lists (`Eigen a.dot(b)`). -/
def dot (a b : Vec) : ℚ := (List.zipWith (· * ·) a b).sum

/-- Matrix-vector product, rows dotted with the vector (`Eigen M * v`). -/
def matVec (M : Mat) (v : Vec) : Vec := M.map (fun r => dot r v)

/-- Componentwise vector sum. -/
def vadd (a b : Vec) : Vec := List.zipWith (· + ·) a b

/-- Componentwise vector difference. -/
def vsub (a b : Vec) : Vec := List.zipWith (· - ·) a b

/-- Componentwise negation. -/
def vneg (a : Vec) : Vec := a.map (fun t => -t)

/-- Scalar multiple of a vector. -/
def smul (c : ℚ) (a : Vec) : Vec := a.map (fun t => c * t)

/-- Infinity norm (`Eigen v.lpNorm<Infinity>()`), 0 for the empty vector. -/
def infNorm (v : Vec) : ℚ := v.foldr (fun t m => max |t| m) 0

/-- Componentwise projection onto the box, exactly as written in the source:
`max(min(v(i), ub(i)), lb(i))` (box-qp.hxx lines 60-62 and 169-171). -/
def project (lb ub v : Vec) : Vec :=
  (List.range v.length).map (fun i => max (min (v.getD i 0) (ub.getD i 0)) (lb.getD i 0))

/-- Gradient of the quadratic objective, `g = q + H*x` (box-qp.hxx lines 69-70). -/
def grad (H : Mat) (q x : Vec) : Vec := vadd q (matVec H x)

/-- Quadratic objective `0.5 * x.dot(H*x) + q.dot(x)` (box-qp.hxx lines 166, 172). -/
def qpObj (H : Mat) (q x : Vec) : ℚ := 1/2 * dot x (matVec H x) + dot q x

/-- Active-set test of box-qp.hxx line 76:
coordinate `j` is clamped iff `(x(j) == lb(j) && g(j) > 0) || (x(j) == ub(j) && g(j) < 0)`. -/
def clampedCond (g x lb ub : Vec) (j : ℕ) : Bool :=
  decide (x.getD j 0 = lb.getD j 0 ∧ 0 < g.getD j 0) ||
  decide (x.getD j 0 = ub.getD j 0 ∧ g.getD j 0 < 0)

/-- The free/clamped index partition (box-qp.hxx lines 66-81): one ascending pass
over `0..n-1`, pushing each index onto the clamped list iff the active-set test
holds, onto the free list otherwise. -/
def partitionIdx (n : ℕ) (g x lb ub : Vec) : List ℕ × List ℕ :=
  ((List.range n).filter (fun j => !clampedCond g x lb ub j),
   (List.range n).filter (fun j => clampedCond g x lb ub j))

/-- Free index list at the current iterate. -/
def freeIdxAt (n : ℕ) (H : Mat) (q lb ub x : Vec) : List ℕ :=
  (partitionIdx n (grad H q x) x lb ub).1

/-- Clamped index list at the current iterate. -/
def clampedIdxAt (n : ℕ) (H : Mat) (q lb ub x : Vec) : List ℕ :=
  (partitionIdx n (grad H q x) x lb ub).2

/-- Gather the entries of `v` at the given indices (free/clamped subvectors). -/
def subvec (v : Vec) (idx : List ℕ) : Vec := idx.map (fun j => v.getD j 0)

/-- Gather a submatrix by row and column index lists (`Hff`, `Hfc` assembly,
box-qp.hxx lines 121-133). -/
def submat (M : Mat) (ridx cidx : List ℕ) : Mat :=
  ridx.map (fun i => cidx.map (fun j => (M.getD i []).getD j 0))

/-- Add the regularization constant to the diagonal, but only when it is
nonzero (box-qp.hxx lines 95-97 and 134-136). -/
def addReg (reg : ℚ) (A : Mat) : Mat :=
  if reg = 0 then A
  else A.mapIdx (fun i r => r.mapIdx (fun j t => if i = j then t + reg else t))

/-- The regularized free-free Hessian block. -/
def HffReg (reg : ℚ) (H : Mat) (fidx : List ℕ) : Mat := addReg reg (submat H fidx fidx)

/-- Exact-arithmetic model of Eigen's `LLT.compute` followed by `solveInPlace`:
symmetric Gaussian elimination on diagonal pivots.  Fails (`none`) exactly when
a pivot is non-positive, which for a symmetric matrix is exactly failure of the
Cholesky factorization (the matrix is not positive definite).  Fuel is the
number of rows, so the recursion is structural and kernel-reducible. -/
def gaussAux : ℕ → Mat → Vec → Option Vec
  | _, [], _ => some []
  | 0, _ :: _, _ => none
  | fuel + 1, row :: rows, b =>
    match row, b with
    | p :: r1, b0 :: bs =>
      if p ≤ 0 then none
      else
        match gaussAux fuel
            (rows.map (fun r => List.zipWith (fun a c => a - r.headD 0 / p * c) r.tail r1))
            (List.zipWith (fun bi r => bi - r.headD 0 / p * b0) bs rows) with
        | none => none
        | some y => some ((b0 - dot r1 y) / p :: y)
    | _, _ => none

/-- Solve `A * y = b` through the Cholesky model. -/
def gaussSolve (A : Mat) (b : Vec) : Option Vec := gaussAux A.length A b

/-- Standard basis vector of length `n`. -/
def unitVec (n j : ℕ) : Vec := (List.range n).map (fun i => if i = j then (1 : ℚ) else 0)

/-- Model of `Hff_inv_.setIdentity(); Hff_inv_llt_.solveInPlace(Hff_inv_)`
(box-qp.hxx lines 104-105, 143-144): solve against every identity column.  The
result rows are the columns of `A⁻¹`, which for the symmetric positive-definite
input of the source coincides with `A⁻¹` itself. -/
def cholInv (A : Mat) : Option Mat :=
  (List.range A.length).mapM (fun j => gaussSolve A (unitVec A.length j))

/-- Right-hand side of the reduced Newton system, `-qf` minus `Hfc*xc` when the
clamped set is non-empty (box-qp.hxx lines 145-148). -/
def newtonRhs (H : Mat) (q x : Vec) (fidx cidx : List ℕ) : Vec :=
  if cidx.length = 0 then vneg (subvec q fidx)
  else vsub (vneg (subvec q fidx)) (matVec (submat H fidx cidx) (subvec x cidx))

/-- Scatter values onto the listed coordinates of a length-`n` zero vector
(box-qp.hxx lines 151-154). -/
def scatter (n : ℕ) (idx : List ℕ) (vals : Vec) : Vec :=
  (List.range n).map (fun j => (List.lookup j (idx.zip vals)).getD 0)

/-- The fixed step-length schedule: `alphas_[n] = 1 / 2^n` for `n = 0..9`
(box-qp.hxx lines 27-31). -/
def alphas : List ℚ := (List.range 10).map (fun n => 1 / 2 ^ n)

/-- Trial point of the line search: `x + steplength*dx` projected onto the box
(box-qp.hxx lines 169-171). -/
def lsTrial (lb ub x dx : Vec) (a : ℚ) : Vec := project lb ub (vadd x (smul a dx))

/-- Acceptance test of the line search (box-qp.hxx line 173):
`fold - fnew > th_acceptstep_ * g.dot(x - xnew)`. -/
def lsAccept (H : Mat) (q lb ub : Vec) (thA : ℚ) (g x dx : Vec) (a : ℚ) : Bool :=
  decide (qpObj H q x - qpObj H q (lsTrial lb ub x dx a) >
    thA * dot g (vsub x (lsTrial lb ub x dx a)))

/-- Walk the step-length schedule, returning the first accepted trial point, or
`x` unchanged when no step is accepted (box-qp.hxx lines 167-177). -/
def lsGo (H : Mat) (q lb ub : Vec) (thA : ℚ) (g x dx : Vec) : List ℚ → Vec
  | [] => x
  | a :: rest =>
    if lsAccept H q lb ub thA g x dx a then lsTrial lb ub x dx a
    else lsGo H q lb ub thA g x dx rest

/-- The backtracking line search over the fixed schedule. -/
def lineSearch (H : Mat) (q lb ub : Vec) (thA : ℚ) (g x dx : Vec) : Vec :=
  lsGo H q lb ub thA g x dx alphas

/-- The value returned by `solve` (struct `BoxQPSolution`). -/
structure BoxQPSolution where
  x : Vec
  free_idx : List ℕ
  clamped_idx : List ℕ
  Hff_inv : Mat
deriving DecidableEq, Repr

/-- The two failure modes of `solve`: a dimension-mismatch `throw` naming the
offending argument, and the Cholesky `backward_error` throw. -/
inductive BoxQPError where
  | invalidArg : String → BoxQPError
  | backwardError : BoxQPError
deriving DecidableEq, Repr

instance exceptDecEq {ε α : Type} [DecidableEq ε] [DecidableEq α] :
    DecidableEq (Except ε α) := fun a b =>
  match a, b with
  | .ok x, .ok y =>
    if h : x = y then isTrue (by rw [h]) else isFalse (fun hh => h (by cases hh; rfl))
  | .ok _, .error _ => isFalse (fun hh => Except.noConfusion hh)
  | .error _, .ok _ => isFalse (fun hh => Except.noConfusion hh)
  | .error e, .error f =>
    if h : e = f then isTrue (by rw [h]) else isFalse (fun hh => h (by cases hh; rfl))

/-- Constructor parameters of `BoxQP` (box-qp.hxx lines 14-32). -/
structure BoxQPParams where
  nx : ℕ
  maxiter : ℕ
  th_acceptstep : ℚ
  th_grad : ℚ
  reg : ℚ
deriving DecidableEq, Repr

/-- The iteration loop of `BoxQP::solve` (box-qp.hxx lines 65-183).  `fuel` is
the number of remaining iterations (`maxiter - k`), `k` the current iteration
counter; `f`, `c`, `inv` carry the solver-owned `free_idx_`, `clamped_idx_` and
`Hff_inv_` buffers across iterations (empty on a fresh solver). -/
def boxQPLoop (p : BoxQPParams) (H : Mat) (q lb ub : Vec) :
    ℕ → ℕ → Vec → List ℕ → List ℕ → Mat → Except BoxQPError BoxQPSolution
  | 0, _, x, f, c, inv => .ok ⟨x, f, c, inv⟩
  | fuel + 1, k, x, _, _, inv =>
    if infNorm (grad H q x) ≤ p.th_grad ∨ (freeIdxAt p.nx H q lb ub x).length = 0 then
      if k = 0 then
        match cholInv (HffReg p.reg H (freeIdxAt p.nx H q lb ub x)) with
        | none => .error .backwardError
        | some inv0 =>
          .ok ⟨x, freeIdxAt p.nx H q lb ub x, clampedIdxAt p.nx H q lb ub x, inv0⟩
      else .ok ⟨x, freeIdxAt p.nx H q lb ub x, clampedIdxAt p.nx H q lb ub x, inv⟩
    else
      match cholInv (HffReg p.reg H (freeIdxAt p.nx H q lb ub x)),
            gaussSolve (HffReg p.reg H (freeIdxAt p.nx H q lb ub x))
              (newtonRhs H q x (freeIdxAt p.nx H q lb ub x) (clampedIdxAt p.nx H q lb ub x)) with
      | some inv1, some sol =>
        if infNorm (scatter p.nx (freeIdxAt p.nx H q lb ub x)
            (vsub sol (subvec x (freeIdxAt p.nx H q lb ub x)))) < p.th_grad then
          .ok ⟨x, freeIdxAt p.nx H q lb ub x, clampedIdxAt p.nx H q lb ub x, inv1⟩
        else
          boxQPLoop p H q lb ub fuel (k + 1)
            (lineSearch H q lb ub p.th_acceptstep (grad H q x) x
              (scatter p.nx (freeIdxAt p.nx H q lb ub x)
                (vsub sol (subvec x (freeIdxAt p.nx H q lb ub x)))))
            (freeIdxAt p.nx H q lb ub x) (clampedIdxAt p.nx H q lb ub x) inv1
      | _, _ => .error .backwardError

/-- Row count of an Eigen-style matrix. -/
def matRows (M : Mat) : ℕ := M.length

/-- Column count of an Eigen-style (rectangular) matrix. -/
def matCols (M : Mat) : ℕ := (M.headD []).length

/-- `BoxQP::solve` (box-qp.hxx lines 36-184): the five dimension checks in
argument order, the feasible warm start, then the iteration loop starting from
the fresh-solver buffers. -/
def solve (p : BoxQPParams) (H : Mat) (q lb ub xinit : Vec) :
    Except BoxQPError BoxQPSolution :=
  if matRows H ≠ p.nx ∨ matCols H ≠ p.nx then .error (.invalidArg "H")
  else if q.length ≠ p.nx then .error (.invalidArg "q")
  else if lb.length ≠ p.nx then .error (.invalidArg "lb")
  else if ub.length ≠ p.nx then .error (.invalidArg "ub")
  else if xinit.length ≠ p.nx then .error (.invalidArg "xinit")
  else boxQPLoop p H q lb ub p.maxiter 0 (project lb ub xinit) [] [] []

/-! ### Basic length and entry lemmas -/

theorem getD_range_map (f : ℕ → ℚ) (n i : ℕ) (h : i < n) :
    ((List.range n).map f).getD i 0 = f i := by
  rw [List.getD_eq_getElem _ 0 (by simpa using h)]
  simp

theorem vadd_length (a b : Vec) : (vadd a b).length = min a.length b.length := by
  simp [vadd]

theorem vsub_length (a b : Vec) : (vsub a b).length = min a.length b.length := by
  simp [vsub]

theorem vneg_length (a : Vec) : (vneg a).length = a.length := by simp [vneg]

theorem smul_length (c : ℚ) (a : Vec) : (smul c a).length = a.length := by simp [smul]

theorem matVec_length (M : Mat) (v : Vec) : (matVec M v).length = M.length := by
  simp [matVec]

theorem project_length (lb ub v : Vec) : (project lb ub v).length = v.length := by
  simp [project]

theorem scatter_length (n : ℕ) (idx : List ℕ) (vals : Vec) :
    (scatter n idx vals).length = n := by simp [scatter]

theorem subvec_length (v : Vec) (idx : List ℕ) : (subvec v idx).length = idx.length := by
  simp [subvec]

theorem submat_length (M : Mat) (ridx cidx : List ℕ) :
    (submat M ridx cidx).length = ridx.length := by simp [submat]

theorem submat_row_length (M : Mat) (ridx cidx : List ℕ) (r : Vec)
    (h : r ∈ submat M ridx cidx) : r.length = cidx.length := by
  simp only [submat, List.mem_map] at h
  obtain ⟨i, _, hi⟩ := h
  simp [← hi]

theorem addReg_length (reg : ℚ) (A : Mat) : (addReg reg A).length = A.length := by
  unfold addReg
  split <;> simp

theorem addReg_row_length (reg : ℚ) (A : Mat) (r : Vec) (h : r ∈ addReg reg A) :
    ∃ r0 ∈ A, r.length = r0.length := by
  unfold addReg at h
  split at h
  · exact ⟨r, h, rfl⟩
  · simp only [List.mem_mapIdx] at h
    obtain ⟨i, hi, hr⟩ := h
    exact ⟨A[i], List.getElem_mem hi, by simp [← hr]⟩

theorem HffReg_square (reg : ℚ) (H : Mat) (fidx : List ℕ) :
    (HffReg reg H fidx).length = fidx.length ∧
      ∀ r ∈ HffReg reg H fidx, r.length = (HffReg reg H fidx).length := by
  constructor
  · rw [HffReg, addReg_length, submat_length]
  · intro r hr
    rw [HffReg, addReg_length, submat_length]
    obtain ⟨r0, hr0, hlen⟩ := addReg_row_length reg _ r hr
    rw [hlen, submat_row_length _ _ _ _ hr0]

theorem newtonRhs_length (H : Mat) (q x : Vec) (fidx cidx : List ℕ) :
    (newtonRhs H q x fidx cidx).length = fidx.length := by
  unfold newtonRhs
  split
  · simp [vneg_length, subvec_length]
  · simp [vsub_length, vneg_length, subvec_length, matVec_length, submat_length]

theorem project_getD (lb ub v : Vec) (i : ℕ) (h : i < v.length) :
    (project lb ub v).getD i 0 = max (min (v.getD i 0) (ub.getD i 0)) (lb.getD i 0) :=
  getD_range_map _ _ _ h

theorem vadd_getD (a b : Vec) (i : ℕ) (ha : i < a.length) (hb : i < b.length) :
    (vadd a b).getD i 0 = a.getD i 0 + b.getD i 0 := by
  rw [List.getD_eq_getElem _ 0 (by simp [vadd]; omega),
    List.getD_eq_getElem _ 0 ha, List.getD_eq_getElem _ 0 hb]
  simp [vadd]

theorem smul_getD (c : ℚ) (a : Vec) (i : ℕ) (ha : i < a.length) :
    (smul c a).getD i 0 = c * a.getD i 0 := by
  rw [List.getD_eq_getElem _ 0 (by simp [smul]; omega), List.getD_eq_getElem _ 0 ha]
  simp [smul]

/-! ### Dot-product algebra -/

theorem dot_nil_left (b : Vec) : dot [] b = 0 := by simp [dot]

theorem dot_nil_right (a : Vec) : dot a [] = 0 := by simp [dot]

theorem dot_cons_cons (a b : ℚ) (as bs : Vec) :
    dot (a :: as) (b :: bs) = a * b + dot as bs := by simp [dot]

theorem dot_comm (a b : Vec) : dot a b = dot b a := by
  induction a generalizing b with
  | nil => simp [dot]
  | cons x xs ih =>
    cases b with
    | nil => simp [dot]
    | cons y ys => rw [dot_cons_cons, dot_cons_cons, ih, mul_comm]

theorem dot_add_right (r x s : Vec) (h : x.length = s.length) :
    dot r (vadd x s) = dot r x + dot r s := by
  induction r generalizing x s with
  | nil => simp [dot_nil_left]
  | cons a rs ih =>
    cases x with
    | nil =>
      have : s = [] := List.eq_nil_of_length_eq_zero (by simpa using h.symm)
      subst this
      simp [vadd, dot_nil_right]
    | cons b xs =>
      cases s with
      | nil => simp at h
      | cons c ss =>
        have h' : xs.length = ss.length := by simpa using h
        simp only [vadd, List.zipWith_cons_cons]
        rw [dot_cons_cons, dot_cons_cons, dot_cons_cons]
        have := ih xs ss h'
        rw [vadd] at this
        rw [this]
        ring

theorem dot_add_left (a b w : Vec) (h : a.length = b.length) :
    dot (vadd a b) w = dot a w + dot b w := by
  rw [dot_comm, dot_add_right w a b h, dot_comm a w, dot_comm b w]

theorem dot_zipWith_linear (u v w : Vec) (m : ℚ) (h : u.length = v.length) :
    dot (List.zipWith (fun a c => a - m * c) u v) w = dot u w - m * dot v w := by
  induction u generalizing v w with
  | nil =>
    have : v = [] := List.eq_nil_of_length_eq_zero (by simpa using h.symm)
    subst this
    simp [dot_nil_left]
  | cons a us ih =>
    cases v with
    | nil => simp at h
    | cons c vs =>
      cases w with
      | nil => simp [dot_nil_right]
      | cons b ws =>
        have h' : us.length = vs.length := by simpa using h
        simp only [List.zipWith_cons_cons]
        rw [dot_cons_cons, dot_cons_cons, dot_cons_cons, ih vs ws h']
        ring

theorem dot_headD_tail (r : Vec) (y0 : ℚ) (y : Vec) (h : r ≠ []) :
    dot r (y0 :: y) = r.headD 0 * y0 + dot r.tail y := by
  cases r with
  | nil => simp at h
  | cons a rs => rw [dot_cons_cons]; simp

theorem vadd_vsub_cancel (a b : Vec) (h : a.length = b.length) :
    vadd b (vsub a b) = a := by
  induction a generalizing b with
  | nil =>
    have : b = [] := List.eq_nil_of_length_eq_zero (by simpa using h.symm)
    subst this
    simp [vadd, vsub]
  | cons x xs ih =>
    cases b with
    | nil => simp at h
    | cons y ys =>
      have h' : xs.length = ys.length := by simpa using h
      simp only [vsub, vadd, List.zipWith_cons_cons]
      have htl := ih ys h'
      simp only [vadd, vsub] at htl
      rw [htl, show y + (x - y) = x by ring]

/-! ### Correctness of the Cholesky-model linear solver -/

theorem gaussAux_spec (fuel : ℕ) :
    ∀ (A : Mat) (b y : Vec), (∀ r ∈ A, r.length = A.length) → b.length = A.length →
      gaussAux fuel A b = some y → y.length = A.length ∧ matVec A y = b := by
  induction fuel with
  | zero =>
    intro A b y _ hb hg
    cases A with
    | nil =>
      simp only [gaussAux, Option.some.injEq] at hg
      subst hg
      have hbn : b = [] := List.length_eq_zero.mp (by simpa using hb)
      subst hbn
      simp [matVec]
    | cons row rows => simp [gaussAux] at hg
  | succ fuel ih =>
    intro A b y hA hb hg
    cases A with
    | nil =>
      simp only [gaussAux, Option.some.injEq] at hg
      subst hg
      have hbn : b = [] := List.length_eq_zero.mp (by simpa using hb)
      subst hbn
      simp [matVec]
    | cons row rows =>
      have hrowlen : row.length = rows.length + 1 := by simpa using hA row (by simp)
      cases row with
      | nil => simp at hrowlen
      | cons p r1 =>
        cases b with
        | nil => simp at hb
        | cons b0 bs =>
          have hr1len : r1.length = rows.length := by simpa using hrowlen
          have hbslen : bs.length = rows.length := by simpa using hb
          have hrows : ∀ r ∈ rows, r.length = rows.length + 1 := by
            intro r hr
            simpa using hA r (by simp [hr])
          simp only [gaussAux] at hg
          by_cases hp : p ≤ 0
          · rw [if_pos hp] at hg
            simp at hg
          · rw [if_neg hp] at hg
            have hp0 : p ≠ 0 := fun h => hp (le_of_eq h)
            cases hrec : gaussAux fuel
                (rows.map (fun r => List.zipWith (fun a c => a - r.headD 0 / p * c) r.tail r1))
                (List.zipWith (fun bi r => bi - r.headD 0 / p * b0) bs rows) with
            | none => rw [hrec] at hg; simp at hg
            | some y1 =>
              rw [hrec] at hg
              simp only [Option.some.injEq] at hg
              subst hg
              have hschurA : ∀ r2 ∈ rows.map
                  (fun r => List.zipWith (fun a c => a - r.headD 0 / p * c) r.tail r1),
                  r2.length = (rows.map
                    (fun r => List.zipWith (fun a c => a - r.headD 0 / p * c) r.tail r1)).length := by
                intro r2 hr2
                simp only [List.mem_map] at hr2
                obtain ⟨r, hr, hr2eq⟩ := hr2
                have : r.tail.length = rows.length := by
                  rw [List.length_tail, hrows r hr]
                  omega
                simp [← hr2eq, this, hr1len]
              have hbs'len : (List.zipWith (fun bi r => bi - r.headD 0 / p * b0) bs rows).length
                  = (rows.map
                    (fun r => List.zipWith (fun a c => a - r.headD 0 / p * c) r.tail r1)).length := by
                simp [hbslen]
              obtain ⟨hy1len, hy1⟩ := ih _ _ y1 hschurA hbs'len hrec
              simp only [List.length_map] at hy1len
              refine ⟨by simpa using hy1len, ?_⟩
              have hhead : dot (p :: r1) ((b0 - dot r1 y1) / p :: y1) = b0 := by
                rw [dot_cons_cons, mul_div_cancel₀ _ hp0]
                ring
              have htail : rows.map (fun r => dot r ((b0 - dot r1 y1) / p :: y1)) = bs := by
                apply List.ext_getElem (by simp [hbslen])
                intro i hi1 hi2
                simp only [List.length_map] at hi1
                have hi3 : i < bs.length := by omega
                have hri : rows[i].length = rows.length + 1 := hrows _ (List.getElem_mem hi1)
                have hrine : rows[i] ≠ [] := by
                  intro hnil
                  rw [hnil] at hri
                  simp at hri
                have eqi := congrArg (fun l => l.getD i 0) hy1
                simp only [matVec] at eqi
                rw [List.getD_eq_getElem _ 0 (by simpa using hi1),
                  List.getD_eq_getElem _ 0 (by simp; omega)] at eqi
                simp only [List.getElem_map, List.getElem_zipWith] at eqi
                have htlen : rows[i].tail.length = r1.length := by
                  rw [List.length_tail, hri, hr1len]
                  omega
                rw [dot_zipWith_linear _ _ _ _ htlen] at eqi
                have hpy0 : p * ((b0 - dot r1 y1) / p) = b0 - dot r1 y1 :=
                  mul_div_cancel₀ _ hp0
                rw [List.getElem_map, dot_headD_tail _ _ _ hrine]
                have h2 : dot rows[i].tail y1 - bs[i] =
                    rows[i].headD 0 / p * (dot r1 y1 - b0) := by linear_combination eqi
                have h3 : dot r1 y1 - b0 = -(p * ((b0 - dot r1 y1) / p)) := by
                  rw [hpy0]
                  ring
                rw [h3] at h2
                have h4 : rows[i].headD 0 / p * -(p * ((b0 - dot r1 y1) / p)) =
                    -(rows[i].headD 0 * ((b0 - dot r1 y1) / p)) := by
                  field_simp
                  ring
                rw [h4] at h2
                linarith [h2]
              simp only [matVec, List.map_cons]
              rw [hhead, htail]

/-- Packaged correctness of `gaussSolve`: a returned solution really solves
`A * y = b`, so the computed Newton direction satisfies the reduced linear
system exactly. -/
theorem gaussSolve_spec (A : Mat) (b y : Vec) (hA : ∀ r ∈ A, r.length = A.length)
    (hb : b.length = A.length) (h : gaussSolve A b = some y) :
    y.length = A.length ∧ matVec A y = b :=
  gaussAux_spec A.length A b y hA hb h

/-! ### Scatter lemmas -/

theorem lookup_zip_not_mem (idx : List ℕ) (vals : Vec) (j : ℕ) (h : j ∉ idx) :
    List.lookup j (idx.zip vals) = none := by
  induction idx generalizing vals with
  | nil => simp
  | cons a idx' ih =>
    cases vals with
    | nil => simp
    | cons v vs =>
      have hne : j ≠ a := fun he => h (he ▸ List.mem_cons_self a idx')
      simp only [List.zip_cons_cons, List.lookup, beq_eq_false_iff_ne.mpr hne]
      exact ih vs (fun hm => h (List.mem_cons_of_mem a hm))

theorem scatter_getD_not_mem (n : ℕ) (idx : List ℕ) (vals : Vec) (j : ℕ)
    (hj : j < n) (h : j ∉ idx) : (scatter n idx vals).getD j 0 = 0 := by
  rw [scatter, getD_range_map _ _ _ hj, lookup_zip_not_mem _ _ _ h]
  rfl

theorem lookup_zip_getD (idx : List ℕ) (vals : Vec) (i : ℕ) (hnd : idx.Nodup)
    (hi : i < idx.length) (hv : i < vals.length) :
    List.lookup (idx.getD i 0) (idx.zip vals) = some (vals.getD i 0) := by
  induction idx generalizing vals i with
  | nil => simp at hi
  | cons a idx' ih =>
    cases vals with
    | nil => simp at hv
    | cons v vs =>
      cases i with
      | zero => simp [List.lookup]
      | succ i' =>
        have hi' : i' < idx'.length := by simpa using hi
        have hv' : i' < vs.length := by simpa using hv
        have hmem : idx'.getD i' 0 ∈ idx' := by
          rw [List.getD_eq_getElem _ 0 hi']
          exact List.getElem_mem hi'
        have hne : idx'.getD i' 0 ≠ a := by
          intro he
          exact (List.nodup_cons.mp hnd).1 (he ▸ hmem)
        simp only [List.getD_cons_succ, List.zip_cons_cons, List.lookup,
          beq_eq_false_iff_ne.mpr hne]
        exact ih vs i' (List.nodup_cons.mp hnd).2 hi' hv'

theorem scatter_getD_mem (n : ℕ) (idx : List ℕ) (vals : Vec) (i : ℕ) (hnd : idx.Nodup)
    (hi : i < idx.length) (hv : i < vals.length) (hjn : idx.getD i 0 < n) :
    (scatter n idx vals).getD (idx.getD i 0) 0 = vals.getD i 0 := by
  rw [scatter, getD_range_map _ _ _ hjn, lookup_zip_getD idx vals i hnd hi hv]
  rfl

/-! ### Partition lemmas -/

/-- Membership and bound consistency of the returned partition: the clamped and
free lists are duplicate-free, disjoint, and together cover `0..n-1`, and every
clamped coordinate of `x` sits on one of its bounds. -/
def PartitionSpec (n : ℕ) (lb ub x : Vec) (f c : List ℕ) : Prop :=
  f.Nodup ∧ c.Nodup ∧ (∀ j, ¬(j ∈ f ∧ j ∈ c)) ∧ (∀ j, j < n ↔ (j ∈ f ∨ j ∈ c)) ∧
    f.length + c.length = n ∧
    ∀ j ∈ c, x.getD j 0 = lb.getD j 0 ∨ x.getD j 0 = ub.getD j 0

theorem mem_clamped_iff (n : ℕ) (g x lb ub : Vec) (j : ℕ) :
    j ∈ (partitionIdx n g x lb ub).2 ↔
      j < n ∧ ((x.getD j 0 = lb.getD j 0 ∧ 0 < g.getD j 0) ∨
        (x.getD j 0 = ub.getD j 0 ∧ g.getD j 0 < 0)) := by
  simp [partitionIdx, clampedCond, List.mem_filter]

theorem mem_free_iff (n : ℕ) (g x lb ub : Vec) (j : ℕ) :
    j ∈ (partitionIdx n g x lb ub).1 ↔
      j < n ∧ ¬((x.getD j 0 = lb.getD j 0 ∧ 0 < g.getD j 0) ∨
        (x.getD j 0 = ub.getD j 0 ∧ g.getD j 0 < 0)) := by
  simp [partitionIdx, clampedCond, List.mem_filter, not_or]
  tauto

theorem partition_lengths (n : ℕ) (g x lb ub : Vec) :
    (partitionIdx n g x lb ub).1.length + (partitionIdx n g x lb ub).2.length = n := by
  have hperm := List.filter_append_perm (fun j => clampedCond g x lb ub j) (List.range n)
  have := hperm.length_eq
  simp only [List.length_append, List.length_range] at this
  simp only [partitionIdx]
  omega

theorem partition_pspec (n : ℕ) (H : Mat) (q lb ub x : Vec) :
    PartitionSpec n lb ub x (freeIdxAt n H q lb ub x) (clampedIdxAt n H q lb ub x) := by
  refine ⟨?_, ?_, ?_, ?_, ?_, ?_⟩
  · exact (List.nodup_range n).filter _
  · exact (List.nodup_range n).filter _
  · intro j ⟨hf, hc⟩
    rw [freeIdxAt, mem_free_iff] at hf
    rw [clampedIdxAt, mem_clamped_iff] at hc
    exact hf.2 hc.2
  · intro j
    constructor
    · intro hj
      by_cases hcl : (x.getD j 0 = lb.getD j 0 ∧ 0 < (grad H q x).getD j 0) ∨
          (x.getD j 0 = ub.getD j 0 ∧ (grad H q x).getD j 0 < 0)
      · exact Or.inr ((mem_clamped_iff n _ x lb ub j).mpr ⟨hj, hcl⟩)
      · exact Or.inl ((mem_free_iff n _ x lb ub j).mpr ⟨hj, hcl⟩)
    · intro hj
      rcases hj with hf | hc
      · exact ((mem_free_iff n _ x lb ub j).mp hf).1
      · exact ((mem_clamped_iff n _ x lb ub j).mp hc).1
  · exact partition_lengths n _ x lb ub
  · intro j hj
    rw [clampedIdxAt, mem_clamped_iff] at hj
    rcases hj.2 with h | h
    · exact Or.inl h.1
    · exact Or.inr h.1

/-! ### Projection and feasibility lemmas -/

/-- Componentwise box membership of the first `n` coordinates. -/
def inBox (n : ℕ) (lb ub x : Vec) : Prop :=
  ∀ i < n, lb.getD i 0 ≤ x.getD i 0 ∧ x.getD i 0 ≤ ub.getD i 0

theorem project_inBox (n : ℕ) (lb ub v : Vec) (hlu : ∀ i < n, lb.getD i 0 ≤ ub.getD i 0)
    (hv : v.length = n) : inBox n lb ub (project lb ub v) := by
  intro i hi
  rw [project_getD lb ub v i (by omega)]
  constructor
  · exact le_max_right _ _
  · exact max_le (le_trans (min_le_right _ _) (le_of_eq rfl)) (hlu i hi) |>.trans_eq rfl

/-! ### Line-search lemmas -/

theorem lsGo_find (H : Mat) (q lb ub : Vec) (thA : ℚ) (g x dx : Vec) (l : List ℚ) :
    lsGo H q lb ub thA g x dx l =
      (match l.find? (lsAccept H q lb ub thA g x dx) with
       | some a => lsTrial lb ub x dx a
       | none => x) := by
  induction l with
  | nil => rfl
  | cons a rest ih =>
    by_cases h : lsAccept H q lb ub thA g x dx a
    · simp [lsGo, h, List.find?_cons_of_pos _ h]
    · simp only [lsGo, h, if_false, List.find?_cons_of_neg _ (by simpa using h), Bool.false_eq_true]
      exact ih

theorem lineSearch_cases (H : Mat) (q lb ub : Vec) (thA : ℚ) (g x dx : Vec) :
    lineSearch H q lb ub thA g x dx = x ∨
      ∃ a, lineSearch H q lb ub thA g x dx = lsTrial lb ub x dx a := by
  rw [lineSearch, lsGo_find]
  cases alphas.find? (lsAccept H q lb ub thA g x dx) with
  | none => exact Or.inl rfl
  | some a => exact Or.inr ⟨a, rfl⟩

theorem lsTrial_length (lb ub x dx : Vec) (a : ℚ) (n : ℕ) (hx : x.length = n)
    (hdx : dx.length = n) : (lsTrial lb ub x dx a).length = n := by
  rw [lsTrial, project_length, vadd_length, smul_length, hx, hdx, min_self]

theorem lineSearch_length (H : Mat) (q lb ub : Vec) (thA : ℚ) (g x dx : Vec) (n : ℕ)
    (hx : x.length = n) (hdx : dx.length = n) :
    (lineSearch H q lb ub thA g x dx).length = n := by
  rcases lineSearch_cases H q lb ub thA g x dx with h | ⟨a, h⟩
  · rw [h, hx]
  · rw [h, lsTrial_length lb ub x dx a n hx hdx]

theorem lsTrial_inBox (lb ub x dx : Vec) (a : ℚ) (n : ℕ)
    (hlu : ∀ i < n, lb.getD i 0 ≤ ub.getD i 0) (hx : x.length = n) (hdx : dx.length = n) :
    inBox n lb ub (lsTrial lb ub x dx a) := by
  apply project_inBox n lb ub _ hlu
  rw [vadd_length, smul_length, hx, hdx, min_self]

theorem lineSearch_inBox (H : Mat) (q lb ub : Vec) (thA : ℚ) (g x dx : Vec) (n : ℕ)
    (hlu : ∀ i < n, lb.getD i 0 ≤ ub.getD i 0) (hx : x.length = n) (hdx : dx.length = n)
    (hbox : inBox n lb ub x) : inBox n lb ub (lineSearch H q lb ub thA g x dx) := by
  rcases lineSearch_cases H q lb ub thA g x dx with h | ⟨a, h⟩
  · rw [h]; exact hbox
  · rw [h]; exact lsTrial_inBox lb ub x dx a n hlu hx hdx

theorem lsTrial_fixed (lb ub x dx : Vec) (a : ℚ) (n j : ℕ) (hj : j < n)
    (hx : x.length = n) (hdx : dx.length = n) (hdxj : dx.getD j 0 = 0)
    (hlo : lb.getD j 0 ≤ x.getD j 0) (hhi : x.getD j 0 ≤ ub.getD j 0) :
    (lsTrial lb ub x dx a).getD j 0 = x.getD j 0 := by
  have hvl : (vadd x (smul a dx)).length = n := by
    rw [vadd_length, smul_length, hx, hdx, min_self]
  rw [lsTrial, project_getD _ _ _ j (by omega),
    vadd_getD _ _ j (by omega) (by rw [smul_length]; omega),
    smul_getD _ _ j (by omega), hdxj, mul_zero, add_zero, min_eq_left hhi, max_eq_left hlo]

theorem lineSearch_fixed (H : Mat) (q lb ub : Vec) (thA : ℚ) (g x dx : Vec) (n j : ℕ)
    (hj : j < n) (hx : x.length = n) (hdx : dx.length = n) (hdxj : dx.getD j 0 = 0)
    (hlo : lb.getD j 0 ≤ x.getD j 0) (hhi : x.getD j 0 ≤ ub.getD j 0) :
    (lineSearch H q lb ub thA g x dx).getD j 0 = x.getD j 0 := by
  rcases lineSearch_cases H q lb ub thA g x dx with h | ⟨a, h⟩
  · rw [h]
  · rw [h, lsTrial_fixed lb ub x dx a n j hj hx hdx hdxj hlo hhi]

/-! ### Quadratic-form algebra -/

theorem dot_sub_right (r u v : Vec) (h : u.length = v.length) :
    dot r (vsub u v) = dot r u - dot r v := by
  induction r generalizing u v with
  | nil => simp [dot_nil_left]
  | cons a rs ih =>
    cases u with
    | nil =>
      have : v = [] := List.length_eq_zero.mp (by simpa using h.symm)
      subst this
      simp [vsub, dot_nil_right]
    | cons b us =>
      cases v with
      | nil => simp at h
      | cons c vs =>
        have h' : us.length = vs.length := by simpa using h
        simp only [vsub, List.zipWith_cons_cons]
        rw [dot_cons_cons, dot_cons_cons, dot_cons_cons]
        have := ih us vs h'
        rw [vsub] at this
        rw [this]
        ring

theorem dot_eq_sum (n : ℕ) : ∀ (a b : Vec), a.length = n → b.length = n →
    dot a b = ∑ i ∈ Finset.range n, a.getD i 0 * b.getD i 0 := by
  induction n with
  | zero =>
    intro a b ha hb
    have han : a = [] := List.length_eq_zero.mp ha
    subst han
    simp [dot_nil_left]
  | succ m ih =>
    intro a b ha hb
    cases a with
    | nil => simp at ha
    | cons a0 as =>
      cases b with
      | nil => simp at hb
      | cons b0 bs =>
        rw [dot_cons_cons, Finset.sum_range_succ']
        simp only [List.getD_cons_succ, List.getD_cons_zero]
        rw [ih as bs (by simpa using ha) (by simpa using hb)]
        ring

theorem matVec_getD (M : Mat) (v : Vec) (i : ℕ) (h : i < M.length) :
    (matVec M v).getD i 0 = dot (M.getD i []) v := by
  rw [List.getD_eq_getElem _ 0 (by simp [matVec]; omega), List.getD_eq_getElem _ [] h]
  simp [matVec]

theorem getD_mem_of_lt (M : Mat) (i : ℕ) (h : i < M.length) : M.getD i [] ∈ M := by
  rw [List.getD_eq_getElem _ [] h]
  exact List.getElem_mem h

theorem dot_matVec_swap (n : ℕ) (H : Mat) (x s : Vec) (hH : H.length = n)
    (hrows : ∀ r ∈ H, r.length = n)
    (hsym : ∀ i < n, ∀ j < n, (H.getD i []).getD j 0 = (H.getD j []).getD i 0)
    (hx : x.length = n) (hs : s.length = n) :
    dot x (matVec H s) = dot s (matVec H x) := by
  have hrowlen : ∀ i < n, (H.getD i []).length = n := fun i hi =>
    hrows _ (getD_mem_of_lt H i (by omega))
  rw [dot_eq_sum n x (matVec H s) hx (by rw [matVec_length, hH]),
    dot_eq_sum n s (matVec H x) hs (by rw [matVec_length, hH])]
  have hlhs : ∀ i ∈ Finset.range n,
      x.getD i 0 * (matVec H s).getD i 0 =
        ∑ j ∈ Finset.range n, x.getD i 0 * ((H.getD i []).getD j 0 * s.getD j 0) := by
    intro i hi
    rw [Finset.mem_range] at hi
    rw [matVec_getD H s i (by omega), dot_eq_sum n _ s (hrowlen i hi) hs, Finset.mul_sum]
  have hrhs : ∀ j ∈ Finset.range n,
      s.getD j 0 * (matVec H x).getD j 0 =
        ∑ i ∈ Finset.range n, s.getD j 0 * ((H.getD j []).getD i 0 * x.getD i 0) := by
    intro j hj
    rw [Finset.mem_range] at hj
    rw [matVec_getD H x j (by omega), dot_eq_sum n _ x (hrowlen j hj) hx, Finset.mul_sum]
  rw [Finset.sum_congr rfl hlhs, Finset.sum_congr rfl hrhs, Finset.sum_comm]
  apply Finset.sum_congr rfl
  intro j hj
  apply Finset.sum_congr rfl
  intro i hi
  rw [Finset.mem_range] at hi hj
  rw [hsym i hi j hj]
  ring

theorem matVec_vadd (H : Mat) (x s : Vec) (h : x.length = s.length) :
    matVec H (vadd x s) = vadd (matVec H x) (matVec H s) := by
  apply List.ext_getElem (by simp [matVec, vadd])
  intro i hi1 hi2
  have hiH : i < H.length := by simpa [matVec] using hi1
  simp only [matVec, vadd, List.getElem_map, List.getElem_zipWith]
  exact dot_add_right _ x s h

/-- Exact second-order expansion of the quadratic objective along a step. -/
theorem qpObj_vadd (n : ℕ) (H : Mat) (q x s : Vec) (hH : H.length = n)
    (hrows : ∀ r ∈ H, r.length = n)
    (hsym : ∀ i < n, ∀ j < n, (H.getD i []).getD j 0 = (H.getD j []).getD i 0)
    (hq : q.length = n) (hx : x.length = n) (hs : s.length = n) :
    qpObj H q (vadd x s) =
      qpObj H q x + dot (grad H q x) s + 1/2 * dot s (matVec H s) := by
  have hxs : x.length = s.length := by omega
  have hux : (matVec H x).length = (matVec H s).length := by simp [matVec_length]
  rw [qpObj, matVec_vadd H x s hxs, dot_add_left x s _ hxs,
    dot_add_right x _ _ hux, dot_add_right s _ _ hux, dot_add_right q x s hxs,
    qpObj, grad, dot_add_left q (matVec H x) s (by rw [hq, matVec_length, hH]),
    dot_matVec_swap n H x s hH hrows hsym hx hs, dot_comm (matVec H x) s]
  ring

/-- An accepted line-search trial strictly decreases the quadratic objective
whenever the curvature along the step is nonnegative (in particular whenever
`H` is positive semidefinite). -/
theorem lsAccept_decrease (n : ℕ) (H : Mat) (q lb ub : Vec) (thA : ℚ) (g x dx : Vec)
    (a : ℚ) (hH : H.length = n) (hrows : ∀ r ∈ H, r.length = n)
    (hsym : ∀ i < n, ∀ j < n, (H.getD i []).getD j 0 = (H.getD j []).getD i 0)
    (hpsd : ∀ v : Vec, v.length = n → 0 ≤ dot v (matVec H v))
    (hq : q.length = n) (hx : x.length = n) (hdx : dx.length = n)
    (hg : g = grad H q x) (hthA0 : 0 < thA) (hthA1 : thA < 1)
    (hacc : lsAccept H q lb ub thA g x dx a = true) :
    qpObj H q (lsTrial lb ub x dx a) ≤ qpObj H q x := by
  have hxnlen : (lsTrial lb ub x dx a).length = n := lsTrial_length lb ub x dx a n hx hdx
  have hslen : (vsub (lsTrial lb ub x dx a) x).length = n := by
    rw [vsub_length, hxnlen, hx, min_self]
  have hxs : vadd x (vsub (lsTrial lb ub x dx a) x) = lsTrial lb ub x dx a :=
    vadd_vsub_cancel _ x (by omega)
  have hid : qpObj H q (lsTrial lb ub x dx a) =
      qpObj H q x + dot (grad H q x) (vsub (lsTrial lb ub x dx a) x) +
        1/2 * dot (vsub (lsTrial lb ub x dx a) x)
          (matVec H (vsub (lsTrial lb ub x dx a) x)) := by
    have hid0 := qpObj_vadd n H q x (vsub (lsTrial lb ub x dx a) x) hH hrows hsym hq hx hslen
    rw [hxs] at hid0
    exact hid0
  rw [lsAccept, decide_eq_true_eq] at hacc
  have hgsub : dot g (vsub x (lsTrial lb ub x dx a)) =
      -(dot (grad H q x) (vsub (lsTrial lb ub x dx a) x)) := by
    rw [hg, dot_sub_right _ x _ (by omega), dot_sub_right _ _ x (by omega)]
    ring
  rw [hgsub] at hacc
  have hQ : 0 ≤ dot (vsub (lsTrial lb ub x dx a) x)
      (matVec H (vsub (lsTrial lb ub x dx a) x)) := hpsd _ hslen
  have hD : dot (grad H q x) (vsub (lsTrial lb ub x dx a) x) < 0 := by
    by_contra hD0
    push_neg at hD0
    have h2 : thA * dot (grad H q x) (vsub (lsTrial lb ub x dx a) x) ≤
        1 * dot (grad H q x) (vsub (lsTrial lb ub x dx a) x) :=
      mul_le_mul_of_nonneg_right (le_of_lt hthA1) hD0
    rw [one_mul] at h2
    linarith
  have h3 : thA * dot (grad H q x) (vsub (lsTrial lb ub x dx a) x) < 0 :=
    mul_neg_of_pos_of_neg hthA0 hD
  linarith

/-- Across one invocation of the line search the objective never increases when
the Hessian is positive semidefinite. -/
theorem lineSearch_monotone (n : ℕ) (H : Mat) (q lb ub : Vec) (thA : ℚ) (g x dx : Vec)
    (hH : H.length = n) (hrows : ∀ r ∈ H, r.length = n)
    (hsym : ∀ i < n, ∀ j < n, (H.getD i []).getD j 0 = (H.getD j []).getD i 0)
    (hpsd : ∀ v : Vec, v.length = n → 0 ≤ dot v (matVec H v))
    (hq : q.length = n) (hx : x.length = n) (hdx : dx.length = n)
    (hg : g = grad H q x) (hthA0 : 0 < thA) (hthA1 : thA < 1) :
    qpObj H q (lineSearch H q lb ub thA g x dx) ≤ qpObj H q x := by
  rw [lineSearch, lsGo_find]
  cases hf : alphas.find? (lsAccept H q lb ub thA g x dx) with
  | none => exact le_refl _
  | some a =>
    exact lsAccept_decrease n H q lb ub thA g x dx a hH hrows hsym hpsd hq hx hdx hg
      hthA0 hthA1 (List.find?_some hf)

/-! ### Loop invariants -/

theorem boxQPLoop_inv (p : BoxQPParams) (H : Mat) (q lb ub : Vec)
    (hlu : ∀ i < p.nx, lb.getD i 0 ≤ ub.getD i 0) :
    ∀ (fuel k : ℕ) (x : Vec) (f c : List ℕ) (inv : Mat) (sol : BoxQPSolution),
      x.length = p.nx → inBox p.nx lb ub x →
      boxQPLoop p H q lb ub fuel k x f c inv = .ok sol →
      (sol.x.length = p.nx ∧ inBox p.nx lb ub sol.x) ∧
        ((fuel = 0 → PartitionSpec p.nx lb ub x f c) →
          PartitionSpec p.nx lb ub sol.x sol.free_idx sol.clamped_idx) := by
  intro fuel
  induction fuel with
  | zero =>
    intro k x f c inv sol hx hbox hloop
    simp only [boxQPLoop, Except.ok.injEq] at hloop
    subst hloop
    exact ⟨⟨hx, hbox⟩, fun h0 => h0 rfl⟩
  | succ fuel ih =>
    intro k x f c inv sol hx hbox hloop
    simp only [boxQPLoop] at hloop
    by_cases hconv : infNorm (grad H q x) ≤ p.th_grad ∨
        (freeIdxAt p.nx H q lb ub x).length = 0
    · rw [if_pos hconv] at hloop
      by_cases hk : k = 0
      · rw [if_pos hk] at hloop
        cases hchol : cholInv (HffReg p.reg H (freeIdxAt p.nx H q lb ub x)) with
        | none => rw [hchol] at hloop; exact absurd hloop (by simp)
        | some inv0 =>
          rw [hchol] at hloop
          simp only [Except.ok.injEq] at hloop
          subst hloop
          exact ⟨⟨hx, hbox⟩, fun _ => partition_pspec p.nx H q lb ub x⟩
      · rw [if_neg hk] at hloop
        simp only [Except.ok.injEq] at hloop
        subst hloop
        exact ⟨⟨hx, hbox⟩, fun _ => partition_pspec p.nx H q lb ub x⟩
    · rw [if_neg hconv] at hloop
      split at hloop
      · rename_i inv1 sol1 hchol hsol
        split at hloop
        · simp only [Except.ok.injEq] at hloop
          subst hloop
          exact ⟨⟨hx, hbox⟩, fun _ => partition_pspec p.nx H q lb ub x⟩
        · have hdxlen : (scatter p.nx (freeIdxAt p.nx H q lb ub x)
              (vsub sol1 (subvec x (freeIdxAt p.nx H q lb ub x)))).length = p.nx :=
            scatter_length _ _ _
          have hxlen' : (lineSearch H q lb ub p.th_acceptstep (grad H q x) x
              (scatter p.nx (freeIdxAt p.nx H q lb ub x)
                (vsub sol1 (subvec x (freeIdxAt p.nx H q lb ub x))))).length = p.nx :=
            lineSearch_length _ _ _ _ _ _ _ _ p.nx hx hdxlen
          have hbox' : inBox p.nx lb ub (lineSearch H q lb ub p.th_acceptstep (grad H q x) x
              (scatter p.nx (freeIdxAt p.nx H q lb ub x)
                (vsub sol1 (subvec x (freeIdxAt p.nx H q lb ub x))))) :=
            lineSearch_inBox _ _ _ _ _ _ _ _ p.nx hlu hx hdxlen hbox
          have hIH := ih (k + 1) _ _ _ _ sol hxlen' hbox' hloop
          refine ⟨hIH.1, fun _ => hIH.2 (fun _ => ?_)⟩
          obtain ⟨hnd1, hnd2, hdisj, hcover, hlen, hbnd⟩ := partition_pspec p.nx H q lb ub x
          refine ⟨hnd1, hnd2, hdisj, hcover, hlen, ?_⟩
          intro j hj
          have hjn : j < p.nx := (hcover j).mpr (Or.inr hj)
          have hjf : j ∉ freeIdxAt p.nx H q lb ub x := fun hf => hdisj j ⟨hf, hj⟩
          have hdxj : (scatter p.nx (freeIdxAt p.nx H q lb ub x)
              (vsub sol1 (subvec x (freeIdxAt p.nx H q lb ub x)))).getD j 0 = 0 :=
            scatter_getD_not_mem _ _ _ j hjn hjf
          rw [lineSearch_fixed H q lb ub p.th_acceptstep (grad H q x) x _ p.nx j hjn hx
            hdxlen hdxj (hbox j hjn).1 (hbox j hjn).2]
          exact hbnd j hj
      · exact absurd hloop (by simp)

/-! ### Unfolding lemmas for `solve` -/

theorem solve_ok_loop (p : BoxQPParams) (H : Mat) (q lb ub xinit : Vec)
    (sol : BoxQPSolution) (hok : solve p H q lb ub xinit = .ok sol) :
    xinit.length = p.nx ∧ lb.length = p.nx ∧ ub.length = p.nx ∧ q.length = p.nx ∧
      boxQPLoop p H q lb ub p.maxiter 0 (project lb ub xinit) [] [] [] = .ok sol := by
  rw [solve] at hok
  by_cases h1 : matRows H ≠ p.nx ∨ matCols H ≠ p.nx
  · rw [if_pos h1] at hok; exact absurd hok (by simp)
  · rw [if_neg h1] at hok
    by_cases h2 : q.length ≠ p.nx
    · rw [if_pos h2] at hok; exact absurd hok (by simp)
    · rw [if_neg h2] at hok
      by_cases h3 : lb.length ≠ p.nx
      · rw [if_pos h3] at hok; exact absurd hok (by simp)
      · rw [if_neg h3] at hok
        by_cases h4 : ub.length ≠ p.nx
        · rw [if_pos h4] at hok; exact absurd hok (by simp)
        · rw [if_neg h4] at hok
          by_cases h5 : xinit.length ≠ p.nx
          · rw [if_pos h5] at hok; exact absurd hok (by simp)
          · rw [if_neg h5] at hok
            exact ⟨not_ne_iff.mp h5, not_ne_iff.mp h3, not_ne_iff.mp h4,
              not_ne_iff.mp h2, hok⟩

/-! ### Claims -/

/-- C1.  For every call to `solve` with elementwise `lb ≤ ub`, every component
of the returned solution's `x` lies within `[lb j, ub j]` inclusive, on every
terminal path: the warm start is projected onto the box and every accepted
line-search trial point is projected onto the box, so no iterate leaves it. -/
theorem boxqp_C1_feasibility (p : BoxQPParams) (H : Mat) (q lb ub xinit : Vec)
    (sol : BoxQPSolution) (hlu : ∀ i < p.nx, lb.getD i 0 ≤ ub.getD i 0)
    (hok : solve p H q lb ub xinit = .ok sol) :
    ∀ i < p.nx, lb.getD i 0 ≤ sol.x.getD i 0 ∧ sol.x.getD i 0 ≤ ub.getD i 0 := by
  obtain ⟨hxi, _, _, _, hloop⟩ := solve_ok_loop p H q lb ub xinit sol hok
  have hx0len : (project lb ub xinit).length = p.nx := by rw [project_length, hxi]
  have hbox0 : inBox p.nx lb ub (project lb ub xinit) :=
    project_inBox p.nx lb ub xinit hlu hxi
  exact (boxQPLoop_inv p H q lb ub hlu p.maxiter 0 _ [] [] [] sol hx0len hbox0 hloop).1.2

unseal Rat.add Rat.mul Rat.inv Rat.sub in
/-- Witness for C1 at a concrete accepted-step run terminating on the upper
bound. -/
theorem boxqp_C1_feasibility_witness :
    ([0] : Vec).getD 0 0 ≤ (BoxQPSolution.mk [1] [] [0] [[1/2]]).x.getD 0 0 ∧
      (BoxQPSolution.mk [1] [] [0] [[1/2]]).x.getD 0 0 ≤ ([1] : Vec).getD 0 0 :=
  boxqp_C1_feasibility ⟨1, 2, 1/10, 1/100, 0⟩ [[2]] [-4] [0] [1] [0]
    ⟨[1], [], [0], [[1/2]]⟩ (by decide) (by decide) 0 (by decide)

/-- C3.  In every iteration, with gradient `g = q + H*x` at the current
iterate, coordinate `j` is clamped iff `(x j = lb j ∧ g j > 0) ∨
(x j = ub j ∧ g j < 0)` and free otherwise; a coordinate exactly on a bound
whose gradient pushes inward or vanishes is free. -/
theorem boxqp_C3_partition (n : ℕ) (H : Mat) (q lb ub x : Vec) (j : ℕ) :
    (j ∈ clampedIdxAt n H q lb ub x ↔
      j < n ∧ ((x.getD j 0 = lb.getD j 0 ∧ 0 < (grad H q x).getD j 0) ∨
        (x.getD j 0 = ub.getD j 0 ∧ (grad H q x).getD j 0 < 0))) ∧
    (j ∈ freeIdxAt n H q lb ub x ↔
      j < n ∧ ¬((x.getD j 0 = lb.getD j 0 ∧ 0 < (grad H q x).getD j 0) ∨
        (x.getD j 0 = ub.getD j 0 ∧ (grad H q x).getD j 0 < 0))) :=
  ⟨mem_clamped_iff n (grad H q x) x lb ub j, mem_free_iff n (grad H q x) x lb ub j⟩

unseal Rat.add Rat.mul Rat.inv Rat.sub in
/-- C4.  The line search tries exactly the ten step lengths
`1, 1/2, ..., 1/2^9` in decreasing order; each trial point is `x + alpha*dx`
projected onto the box; the first alpha passing the sufficient-decrease test is
accepted, and `x` is left unchanged when no alpha passes. -/
theorem boxqp_C4_line_search :
    alphas = [1, 1/2, 1/4, 1/8, 1/16, 1/32, 1/64, 1/128, 1/256, 1/512] ∧
    alphas.length = 10 ∧ List.Pairwise (fun a b => a > b) alphas ∧
    (∀ (H : Mat) (q lb ub : Vec) (thA : ℚ) (g x dx : Vec),
      lineSearch H q lb ub thA g x dx =
        (match alphas.find? (lsAccept H q lb ub thA g x dx) with
         | some a => lsTrial lb ub x dx a
         | none => x)) ∧
    ∀ (p : BoxQPParams) (H : Mat) (q lb ub x : Vec) (f c : List ℕ) (inv inv1 : Mat)
      (sol1 : Vec) (fuel k : ℕ),
      ¬(infNorm (grad H q x) ≤ p.th_grad ∨ (freeIdxAt p.nx H q lb ub x).length = 0) →
      cholInv (HffReg p.reg H (freeIdxAt p.nx H q lb ub x)) = some inv1 →
      gaussSolve (HffReg p.reg H (freeIdxAt p.nx H q lb ub x))
        (newtonRhs H q x (freeIdxAt p.nx H q lb ub x) (clampedIdxAt p.nx H q lb ub x)) =
          some sol1 →
      ¬(infNorm (scatter p.nx (freeIdxAt p.nx H q lb ub x)
          (vsub sol1 (subvec x (freeIdxAt p.nx H q lb ub x)))) < p.th_grad) →
      boxQPLoop p H q lb ub (fuel + 1) k x f c inv =
        boxQPLoop p H q lb ub fuel (k + 1)
          (lineSearch H q lb ub p.th_acceptstep (grad H q x) x
            (scatter p.nx (freeIdxAt p.nx H q lb ub x)
              (vsub sol1 (subvec x (freeIdxAt p.nx H q lb ub x)))))
          (freeIdxAt p.nx H q lb ub x) (clampedIdxAt p.nx H q lb ub x) inv1 := by
  refine ⟨by decide, by decide, by decide, ?_, ?_⟩
  · intro H q lb ub thA g x dx
    rw [lineSearch]
    exact lsGo_find H q lb ub thA g x dx alphas
  · intro p H q lb ub x f c inv inv1 sol1 fuel k hconv hchol hg hstall
    simp only [boxQPLoop]
    rw [if_neg hconv, hchol, hg]
    simp only [hstall, if_false]

unseal Rat.add Rat.mul Rat.inv Rat.sub in
/-- Witness for C4 (budget conjunct): at a concrete non-converged, non-stalled
state, one outer iteration passes through the line search and consumes exactly
one unit of the iteration budget. -/
theorem boxqp_C4_line_search_witness :
    boxQPLoop ⟨1, 2, 1/10, 1/100, 0⟩ [[2]] [-4] [0] [1] 2 0 [0] [] [] [] =
      boxQPLoop ⟨1, 2, 1/10, 1/100, 0⟩ [[2]] [-4] [0] [1] 1 1
        (lineSearch [[2]] [-4] [0] [1] (1/10) (grad [[2]] [-4] [0]) [0]
          (scatter 1 (freeIdxAt 1 [[2]] [-4] [0] [1] [0])
            (vsub [2] (subvec [0] (freeIdxAt 1 [[2]] [-4] [0] [1] [0])))))
        (freeIdxAt 1 [[2]] [-4] [0] [1] [0]) (clampedIdxAt 1 [[2]] [-4] [0] [1] [0])
        [[1/2]] :=
  boxqp_C4_line_search.2.2.2.2 ⟨1, 2, 1/10, 1/100, 0⟩ [[2]] [-4] [0] [1] [0] [] [] []
    [[1/2]] [2] 1 0 (by decide) (by decide) (by decide) (by decide)

/-- C9.  Any dimension mismatch against the fixed `n` makes `solve` fail with
an invalid-argument condition naming the offending argument, the checks being
performed in the order `H`, `q`, `lb`, `ub`, `xinit`, before any iteration. -/
theorem boxqp_C9_dim_checks (p : BoxQPParams) (H : Mat) (q lb ub xinit : Vec) :
    (matRows H ≠ p.nx ∨ matCols H ≠ p.nx →
      solve p H q lb ub xinit = .error (.invalidArg "H")) ∧
    (matRows H = p.nx → matCols H = p.nx → q.length ≠ p.nx →
      solve p H q lb ub xinit = .error (.invalidArg "q")) ∧
    (matRows H = p.nx → matCols H = p.nx → q.length = p.nx → lb.length ≠ p.nx →
      solve p H q lb ub xinit = .error (.invalidArg "lb")) ∧
    (matRows H = p.nx → matCols H = p.nx → q.length = p.nx → lb.length = p.nx →
      ub.length ≠ p.nx → solve p H q lb ub xinit = .error (.invalidArg "ub")) ∧
    (matRows H = p.nx → matCols H = p.nx → q.length = p.nx → lb.length = p.nx →
      ub.length = p.nx → xinit.length ≠ p.nx →
      solve p H q lb ub xinit = .error (.invalidArg "xinit")) := by
  refine ⟨?_, ?_, ?_, ?_, ?_⟩
  · intro h
    rw [solve, if_pos h]
  · intro h1 h2 h3
    rw [solve, if_neg (by simp [h1, h2]), if_pos h3]
  · intro h1 h2 h3 h4
    rw [solve, if_neg (by simp [h1, h2]), if_neg (by simp [h3]), if_pos h4]
  · intro h1 h2 h3 h4 h5
    rw [solve, if_neg (by simp [h1, h2]), if_neg (by simp [h3]), if_neg (by simp [h4]),
      if_pos h5]
  · intro h1 h2 h3 h4 h5 h6
    rw [solve, if_neg (by simp [h1, h2]), if_neg (by simp [h3]), if_neg (by simp [h4]),
      if_neg (by simp [h5]), if_pos h6]

unseal Rat.add Rat.mul Rat.inv Rat.sub in
/-- Witness for C9: each of the five checks fires on a concrete mis-sized
argument, in order. -/
theorem boxqp_C9_dim_checks_witness :
    solve ⟨1, 5, 1/10, 1/100, 0⟩ [[1, 2]] [0] [0] [1] [0] = .error (.invalidArg "H") ∧
    solve ⟨1, 5, 1/10, 1/100, 0⟩ [[1]] [0, 3] [0] [1] [0] = .error (.invalidArg "q") ∧
    solve ⟨1, 5, 1/10, 1/100, 0⟩ [[1]] [0] [] [1] [0] = .error (.invalidArg "lb") ∧
    solve ⟨1, 5, 1/10, 1/100, 0⟩ [[1]] [0] [0] [1, 1] [0] = .error (.invalidArg "ub") ∧
    solve ⟨1, 5, 1/10, 1/100, 0⟩ [[1]] [0] [0] [1] [] = .error (.invalidArg "xinit") :=
  ⟨(boxqp_C9_dim_checks ⟨1, 5, 1/10, 1/100, 0⟩ [[1, 2]] [0] [0] [1] [0]).1 (by decide),
   (boxqp_C9_dim_checks ⟨1, 5, 1/10, 1/100, 0⟩ [[1]] [0, 3] [0] [1] [0]).2.1
     (by decide) (by decide) (by decide),
   (boxqp_C9_dim_checks ⟨1, 5, 1/10, 1/100, 0⟩ [[1]] [0] [] [1] [0]).2.2.1
     (by decide) (by decide) (by decide) (by decide),
   (boxqp_C9_dim_checks ⟨1, 5, 1/10, 1/100, 0⟩ [[1]] [0] [0] [1, 1] [0]).2.2.2.1
     (by decide) (by decide) (by decide) (by decide) (by decide),
   (boxqp_C9_dim_checks ⟨1, 5, 1/10, 1/100, 0⟩ [[1]] [0] [0] [1] []).2.2.2.2
     (by decide) (by decide) (by decide) (by decide) (by decide) (by decide)⟩

/-- C10.  With maximum iteration count 0 and correctly sized arguments, `solve`
returns without error the componentwise projection of `xinit` onto the box,
with both index lists (and the cached inverse) empty. -/
theorem boxqp_C10_maxiter_zero (p : BoxQPParams) (H : Mat) (q lb ub xinit : Vec)
    (hm : p.maxiter = 0) (hH1 : matRows H = p.nx) (hH2 : matCols H = p.nx)
    (hq : q.length = p.nx) (hlb : lb.length = p.nx) (hub : ub.length = p.nx)
    (hxi : xinit.length = p.nx) :
    solve p H q lb ub xinit = .ok ⟨project lb ub xinit, [], [], []⟩ := by
  rw [solve, if_neg (by simp [hH1, hH2]), if_neg (by simp [hq]), if_neg (by simp [hlb]),
    if_neg (by simp [hub]), if_neg (by simp [hxi]), hm]
  rfl

unseal Rat.add Rat.mul Rat.inv Rat.sub in
/-- Witness for C10 at a concrete call with `maxiter = 0`. -/
theorem boxqp_C10_maxiter_zero_witness :
    solve ⟨1, 0, 1/10, 1/100, 0⟩ [[1]] [0] [0] [1] [5] =
      .ok ⟨project [0] [1] [5], [], [], []⟩ :=
  boxqp_C10_maxiter_zero ⟨1, 0, 1/10, 1/100, 0⟩ [[1]] [0] [0] [1] [5]
    rfl (by decide) (by decide) (by decide) (by decide) (by decide) (by decide)

theorem vadd_comm (a b : Vec) : vadd a b = vadd b a :=
  List.zipWith_comm_of_comm _ (fun x y => add_comm x y) a b

theorem vsub_replicate_zero (v : Vec) : vsub v (List.replicate v.length 0) = v := by
  induction v with
  | nil => rfl
  | cons a vs ih =>
    simp only [List.replicate, vsub, List.zipWith_cons_cons, sub_zero]
    rw [show List.zipWith (fun t u => t - u) vs (List.replicate vs.length 0) = vs from ih]

/-- The two branches of `newtonRhs` agree: with an empty clamped set the
`Hfc*xc` correction is a zero vector. -/
theorem newtonRhs_eq (H : Mat) (q x : Vec) (fidx cidx : List ℕ) :
    newtonRhs H q x fidx cidx =
      vsub (vneg (subvec q fidx)) (matVec (submat H fidx cidx) (subvec x cidx)) := by
  rw [newtonRhs]
  split
  · rename_i hc
    have hcnil : cidx = [] := List.length_eq_zero.mp hc
    subst hcnil
    have hmz : matVec (submat H fidx []) (subvec x []) =
        List.replicate (vneg (subvec q fidx)).length 0 := by
      simp only [subvec, List.map_nil, submat, matVec, List.map_map]
      have hfz : ((fun r => dot r ([] : Vec)) ∘ (fun i : ℕ => ([] : Vec))) =
          fun i : ℕ => (0 : ℚ) := by
        funext i
        simp [dot]
      rw [hfz, List.map_const']
      simp [vneg]
    rw [hmz, vsub_replicate_zero]
  · rfl

/-- C2.  In an iteration with a non-empty free set, the solved Newton
direction `dxf` satisfies `Hff_reg * (dxf + xf) = -qf - Hfc*xc` (i.e.
`dxf = Hff_reg⁻¹ (-qf - Hfc xc) - xf`), where `Hff_reg` carries the
regularization on its diagonal only when it is nonzero; the full-length
direction is `dxf` scattered onto the free indices and is exactly zero on
every clamped coordinate. -/
theorem boxqp_C2_newton_direction (n : ℕ) (reg : ℚ) (H : Mat) (q lb ub x : Vec)
    (sol1 : Vec) (_hne : freeIdxAt n H q lb ub x ≠ [])
    (hsol : gaussSolve (HffReg reg H (freeIdxAt n H q lb ub x))
      (newtonRhs H q x (freeIdxAt n H q lb ub x) (clampedIdxAt n H q lb ub x)) =
        some sol1) :
    matVec (HffReg reg H (freeIdxAt n H q lb ub x))
        (vadd (vsub sol1 (subvec x (freeIdxAt n H q lb ub x)))
          (subvec x (freeIdxAt n H q lb ub x))) =
      vsub (vneg (subvec q (freeIdxAt n H q lb ub x)))
        (matVec (submat H (freeIdxAt n H q lb ub x) (clampedIdxAt n H q lb ub x))
          (subvec x (clampedIdxAt n H q lb ub x))) ∧
    (scatter n (freeIdxAt n H q lb ub x)
      (vsub sol1 (subvec x (freeIdxAt n H q lb ub x)))).length = n ∧
    (∀ j ∈ clampedIdxAt n H q lb ub x,
      (scatter n (freeIdxAt n H q lb ub x)
        (vsub sol1 (subvec x (freeIdxAt n H q lb ub x)))).getD j 0 = 0) ∧
    (∀ i < (freeIdxAt n H q lb ub x).length,
      (scatter n (freeIdxAt n H q lb ub x)
          (vsub sol1 (subvec x (freeIdxAt n H q lb ub x)))).getD
        ((freeIdxAt n H q lb ub x).getD i 0) 0 =
      (vsub sol1 (subvec x (freeIdxAt n H q lb ub x))).getD i 0) := by
  obtain ⟨hsq1, hsq2⟩ := HffReg_square reg H (freeIdxAt n H q lb ub x)
  have hrhslen : (newtonRhs H q x (freeIdxAt n H q lb ub x)
      (clampedIdxAt n H q lb ub x)).length =
      (HffReg reg H (freeIdxAt n H q lb ub x)).length := by
    rw [newtonRhs_length, hsq1]
  obtain ⟨hslen, hAs⟩ := gaussSolve_spec _ _ sol1 hsq2 hrhslen hsol
  have hxflen : (subvec x (freeIdxAt n H q lb ub x)).length =
      (freeIdxAt n H q lb ub x).length := subvec_length _ _
  have hsollen : sol1.length = (subvec x (freeIdxAt n H q lb ub x)).length := by
    rw [hslen, hsq1, hxflen]
  obtain ⟨hnd1, _, hdisj, hcover, _, _⟩ := partition_pspec n H q lb ub x
  refine ⟨?_, scatter_length _ _ _, ?_, ?_⟩
  · rw [vadd_comm, vadd_vsub_cancel sol1 _ hsollen, hAs, newtonRhs_eq]
  · intro j hj
    have hjn : j < n := (hcover j).mpr (Or.inr hj)
    have hjf : j ∉ freeIdxAt n H q lb ub x := fun hf => hdisj j ⟨hf, hj⟩
    exact scatter_getD_not_mem _ _ _ j hjn hjf
  · intro i hi
    have hdxflen : i < (vsub sol1 (subvec x (freeIdxAt n H q lb ub x))).length := by
      rw [vsub_length, hslen, hsq1, hxflen, min_self]
      exact hi
    have hmem : (freeIdxAt n H q lb ub x).getD i 0 ∈ freeIdxAt n H q lb ub x := by
      rw [List.getD_eq_getElem _ 0 hi]
      exact List.getElem_mem hi
    have hjn : (freeIdxAt n H q lb ub x).getD i 0 < n :=
      ((mem_free_iff n (grad H q x) x lb ub _).mp hmem).1
    exact scatter_getD_mem n _ _ i hnd1 hi hdxflen hjn

unseal Rat.add Rat.mul Rat.inv Rat.sub in
/-- Witness for C2 at a concrete 2-dimensional iterate with one clamped
coordinate. -/
theorem boxqp_C2_newton_direction_witness :
    freeIdxAt 2 [[2, 1], [1, 2]] [1, -10] [-10, -10] [10, 1] [0, 1] ≠ [] ∧
    gaussSolve (HffReg 0 [[2, 1], [1, 2]]
        (freeIdxAt 2 [[2, 1], [1, 2]] [1, -10] [-10, -10] [10, 1] [0, 1]))
      (newtonRhs [[2, 1], [1, 2]] [1, -10] [0, 1]
        (freeIdxAt 2 [[2, 1], [1, 2]] [1, -10] [-10, -10] [10, 1] [0, 1])
        (clampedIdxAt 2 [[2, 1], [1, 2]] [1, -10] [-10, -10] [10, 1] [0, 1])) =
      some [-1] ∧
    (scatter 2 (freeIdxAt 2 [[2, 1], [1, 2]] [1, -10] [-10, -10] [10, 1] [0, 1])
      (vsub [-1] (subvec [0, 1]
        (freeIdxAt 2 [[2, 1], [1, 2]] [1, -10] [-10, -10] [10, 1] [0, 1])))).getD 1 0
      = 0 :=
  ⟨by decide, by decide,
    (boxqp_C2_newton_direction 2 0 [[2, 1], [1, 2]] [1, -10] [-10, -10] [10, 1] [0, 1]
      [-1] (by decide) (by decide)).2.2.1 1 (by decide)⟩

unseal Rat.add Rat.mul Rat.inv Rat.sub in
/-- Counterexample for C5 as stated: on this input `solve` terminates through
the convergence check at iteration 1 with an empty terminal free set, whose
regularized free-free inverse is the 0-by-0 matrix, yet the returned
`Hff_inv` is the 1-by-1 inverse computed during iteration 0's Newton step. -/
theorem boxqp_C5_counterexample :
    solve ⟨1, 2, 1/10, 1/100, 0⟩ [[2]] [-4] [0] [1] [0] =
      .ok ⟨[1], [], [0], [[1/2]]⟩ ∧
    cholInv (HffReg 0 [[2]] []) = some [] ∧
    ([[(1 : ℚ)/2]] : Mat) ≠ ([] : Mat) := by
  refine ⟨by decide, by decide, by decide⟩

/-- C5 (amended).  When the convergence check fires at iteration 0, the
returned inverse is the Cholesky inverse of the regularized free-free block of
the terminal partition; when it fires at a later iteration, the previously
stored inverse (from the preceding Newton step, possibly for a different
partition) is returned unchanged. -/
theorem boxqp_C5_conv_inverse (p : BoxQPParams) (H : Mat) (q lb ub : Vec)
    (fuel k : ℕ) (x : Vec) (f c : List ℕ) (inv : Mat)
    (hconv : infNorm (grad H q x) ≤ p.th_grad ∨
      (freeIdxAt p.nx H q lb ub x).length = 0) :
    (k = 0 → ∀ M, cholInv (HffReg p.reg H (freeIdxAt p.nx H q lb ub x)) = some M →
      boxQPLoop p H q lb ub (fuel + 1) k x f c inv =
        .ok ⟨x, freeIdxAt p.nx H q lb ub x, clampedIdxAt p.nx H q lb ub x, M⟩) ∧
    (k ≠ 0 → boxQPLoop p H q lb ub (fuel + 1) k x f c inv =
        .ok ⟨x, freeIdxAt p.nx H q lb ub x, clampedIdxAt p.nx H q lb ub x, inv⟩) := by
  constructor
  · intro hk M hM
    simp only [boxQPLoop]
    rw [if_pos hconv, if_pos hk, hM]
  · intro hk
    simp only [boxQPLoop]
    rw [if_pos hconv, if_neg hk]

unseal Rat.add Rat.mul Rat.inv Rat.sub in
/-- Witness for the amended C5: both branches at concrete converged states. -/
theorem boxqp_C5_conv_inverse_witness :
    boxQPLoop ⟨1, 5, 1/10, 10, 0⟩ [[2]] [1] [-1] [1] 1 0 [0] [] [] [] =
      .ok ⟨[0], freeIdxAt 1 [[2]] [1] [-1] [1] [0],
        clampedIdxAt 1 [[2]] [1] [-1] [1] [0], [[1/2]]⟩ ∧
    boxQPLoop ⟨1, 5, 1/10, 10, 0⟩ [[2]] [1] [-1] [1] 1 3 [0] [] [] [[7]] =
      .ok ⟨[0], freeIdxAt 1 [[2]] [1] [-1] [1] [0],
        clampedIdxAt 1 [[2]] [1] [-1] [1] [0], [[7]]⟩ :=
  ⟨(boxqp_C5_conv_inverse ⟨1, 5, 1/10, 10, 0⟩ [[2]] [1] [-1] [1] 0 0 [0] [] [] []
      (by decide)).1 rfl [[1/2]] (by decide),
   (boxqp_C5_conv_inverse ⟨1, 5, 1/10, 10, 0⟩ [[2]] [1] [-1] [1] 0 3 [0] [] [] [[7]]
      (by decide)).2 (by decide)⟩

unseal Rat.add Rat.mul Rat.inv Rat.sub in
/-- Counterexample for C6 as stated: on this concrete solve (indefinite `H`
with nonzero regularization) the warm start is `[1]` and the single accepted
line-search step replaces it by `[-1/4]`, strictly increasing the quadratic
objective. -/
theorem boxqp_C6_counterexample :
    solve ⟨1, 1, 1/2, 1/100, 2⟩ [[-1]] [1/4] [-10] [10] [1] =
      .ok ⟨[-1/4], [0], [], [[1]]⟩ ∧
    project [-10] [10] [1] = [1] ∧
    qpObj [[-1]] [1/4] [1] < qpObj [[-1]] [1/4] [-1/4] := by
  refine ⟨by decide, by decide, by decide⟩

/-- C6 (amended).  Whenever the Hessian is symmetric positive semidefinite (the
convex case the kernel is designed for), the line search never increases the
quadratic objective: each accepted trial point has objective at most that of
the previous iterate, and a rejected schedule leaves `x` unchanged. -/
theorem boxqp_C6_monotone (n : ℕ) (H : Mat) (q lb ub : Vec) (thA : ℚ) (g x dx : Vec)
    (hH : H.length = n) (hrows : ∀ r ∈ H, r.length = n)
    (hsym : ∀ i < n, ∀ j < n, (H.getD i []).getD j 0 = (H.getD j []).getD i 0)
    (hpsd : ∀ v : Vec, v.length = n → 0 ≤ dot v (matVec H v))
    (hq : q.length = n) (hx : x.length = n) (hdx : dx.length = n)
    (hg : g = grad H q x) (hthA0 : 0 < thA) (hthA1 : thA < 1) :
    qpObj H q (lineSearch H q lb ub thA g x dx) ≤ qpObj H q x :=
  lineSearch_monotone n H q lb ub thA g x dx hH hrows hsym hpsd hq hx hdx hg hthA0 hthA1

unseal Rat.add Rat.mul Rat.inv Rat.sub in
/-- Witness for the amended C6 at a concrete convex instance. -/
theorem boxqp_C6_monotone_witness :
    qpObj [[2]] [0] (lineSearch [[2]] [0] [-1] [1] (1/10) [2] [1] [-2]) ≤
      qpObj [[2]] [0] [1] :=
  boxqp_C6_monotone 1 [[2]] [0] [-1] [1] (1/10) [2] [1] [-2] (by decide) (by decide)
    (by decide)
    (fun v hv => by
      obtain ⟨a, rfl⟩ := List.length_eq_one.mp hv
      simp only [matVec, dot, List.map_cons, List.map_nil, List.zipWith_cons_cons,
        List.zipWith_nil_right, List.sum_cons, List.sum_nil]
      nlinarith [sq_nonneg a])
    (by decide) (by decide) (by decide) (by decide) (by decide) (by decide)

unseal Rat.add Rat.mul Rat.inv Rat.sub in
/-- Counterexample for C7 as stated: with `maxiter = 0` the solver returns a
solution whose free and clamped lists are both empty, so they do not cover the
single index of this 1-dimensional problem. -/
theorem boxqp_C7_counterexample :
    solve ⟨1, 0, 1/10, 1/100, 0⟩ [[1]] [0] [0] [1] [5] = .ok ⟨[1], [], [], []⟩ ∧
    ¬ PartitionSpec 1 [0] [1] [1] [] [] :=
  ⟨by decide, fun h => absurd ((h.2.2.2.1 0).mp (by decide)) (by decide)⟩

/-- A coordinate with zero direction that sits exactly on one of its bounds is
mapped by the trial projection back onto one of its bounds, with no ordering
assumption on the bounds: `max(min(v, ub), lb)` sends `lb` to `lb` and sends
`ub` to `lb` or `ub`. -/
theorem lsTrial_bound (lb ub x dx : Vec) (a : ℚ) (n j : ℕ) (hj : j < n)
    (hx : x.length = n) (hdx : dx.length = n) (hdxj : dx.getD j 0 = 0)
    (hb : x.getD j 0 = lb.getD j 0 ∨ x.getD j 0 = ub.getD j 0) :
    (lsTrial lb ub x dx a).getD j 0 = lb.getD j 0 ∨
      (lsTrial lb ub x dx a).getD j 0 = ub.getD j 0 := by
  rw [lsTrial, project_getD _ _ _ j
      (by rw [vadd_length, smul_length, hx, hdx, min_self]; omega),
    vadd_getD _ _ j (by omega) (by rw [smul_length]; omega),
    smul_getD _ _ j (by omega), hdxj, mul_zero, add_zero]
  rcases hb with hb | hb
  · rw [hb]
    exact Or.inl (max_eq_right (min_le_left _ _))
  · rw [hb, min_self]
    rcases le_total (lb.getD j 0) (ub.getD j 0) with h | h
    · exact Or.inr (max_eq_left h)
    · exact Or.inl (max_eq_right h)

theorem lineSearch_bound (H : Mat) (q lb ub : Vec) (thA : ℚ) (g x dx : Vec) (n j : ℕ)
    (hj : j < n) (hx : x.length = n) (hdx : dx.length = n) (hdxj : dx.getD j 0 = 0)
    (hb : x.getD j 0 = lb.getD j 0 ∨ x.getD j 0 = ub.getD j 0) :
    (lineSearch H q lb ub thA g x dx).getD j 0 = lb.getD j 0 ∨
      (lineSearch H q lb ub thA g x dx).getD j 0 = ub.getD j 0 := by
  rcases lineSearch_cases H q lb ub thA g x dx with h | ⟨a, h⟩
  · rw [h]; exact hb
  · rw [h]; exact lsTrial_bound lb ub x dx a n j hj hx hdx hdxj hb

/-- Partition consistency of the loop with no ordering assumption on the
bounds: clamped coordinates have zero direction, and the trial projection maps
a bound value back onto a bound, so the bound membership recorded by the
partition survives the line search. -/
theorem boxQPLoop_pspec (p : BoxQPParams) (H : Mat) (q lb ub : Vec) :
    ∀ (fuel k : ℕ) (x : Vec) (f c : List ℕ) (inv : Mat) (sol : BoxQPSolution),
      x.length = p.nx →
      (fuel = 0 → PartitionSpec p.nx lb ub x f c) →
      boxQPLoop p H q lb ub fuel k x f c inv = .ok sol →
      PartitionSpec p.nx lb ub sol.x sol.free_idx sol.clamped_idx := by
  intro fuel
  induction fuel with
  | zero =>
    intro k x f c inv sol hx h0 hloop
    simp only [boxQPLoop, Except.ok.injEq] at hloop
    subst hloop
    exact h0 rfl
  | succ fuel ih =>
    intro k x f c inv sol hx _ hloop
    simp only [boxQPLoop] at hloop
    by_cases hconv : infNorm (grad H q x) ≤ p.th_grad ∨
        (freeIdxAt p.nx H q lb ub x).length = 0
    · rw [if_pos hconv] at hloop
      by_cases hk : k = 0
      · rw [if_pos hk] at hloop
        cases hchol : cholInv (HffReg p.reg H (freeIdxAt p.nx H q lb ub x)) with
        | none => rw [hchol] at hloop; exact absurd hloop (by simp)
        | some inv0 =>
          rw [hchol] at hloop
          simp only [Except.ok.injEq] at hloop
          subst hloop
          exact partition_pspec p.nx H q lb ub x
      · rw [if_neg hk] at hloop
        simp only [Except.ok.injEq] at hloop
        subst hloop
        exact partition_pspec p.nx H q lb ub x
    · rw [if_neg hconv] at hloop
      split at hloop
      · rename_i inv1 sol1 hchol hsol
        split at hloop
        · simp only [Except.ok.injEq] at hloop
          subst hloop
          exact partition_pspec p.nx H q lb ub x
        · have hdxlen : (scatter p.nx (freeIdxAt p.nx H q lb ub x)
              (vsub sol1 (subvec x (freeIdxAt p.nx H q lb ub x)))).length = p.nx :=
            scatter_length _ _ _
          have hxlen' : (lineSearch H q lb ub p.th_acceptstep (grad H q x) x
              (scatter p.nx (freeIdxAt p.nx H q lb ub x)
                (vsub sol1 (subvec x (freeIdxAt p.nx H q lb ub x))))).length = p.nx :=
            lineSearch_length _ _ _ _ _ _ _ _ p.nx hx hdxlen
          apply ih (k + 1) _ _ _ _ sol hxlen' (fun _ => ?_) hloop
          obtain ⟨hnd1, hnd2, hdisj, hcover, hlen, hbnd⟩ := partition_pspec p.nx H q lb ub x
          refine ⟨hnd1, hnd2, hdisj, hcover, hlen, ?_⟩
          intro j hj
          have hjn : j < p.nx := (hcover j).mpr (Or.inr hj)
          have hjf : j ∉ freeIdxAt p.nx H q lb ub x := fun hf => hdisj j ⟨hf, hj⟩
          have hdxj : (scatter p.nx (freeIdxAt p.nx H q lb ub x)
              (vsub sol1 (subvec x (freeIdxAt p.nx H q lb ub x)))).getD j 0 = 0 :=
            scatter_getD_not_mem _ _ _ j hjn hjf
          exact lineSearch_bound H q lb ub p.th_acceptstep (grad H q x) x _ p.nx j hjn hx
            hdxlen hdxj (hbnd j hj)
      · exact absurd hloop (by simp)

/-- C7 (amended).  On every terminal path of a solve that performs at least one
iteration (`maxiter ≥ 1`), the returned free and clamped lists are
duplicate-free, disjoint, together contain every index `0..n-1`, their
cardinalities sum to `n`, and every clamped index sits on one of its bounds in
the returned `x`. -/
theorem boxqp_C7_partition (p : BoxQPParams) (H : Mat) (q lb ub xinit : Vec)
    (sol : BoxQPSolution) (hmax : 1 ≤ p.maxiter)
    (hok : solve p H q lb ub xinit = .ok sol) :
    PartitionSpec p.nx lb ub sol.x sol.free_idx sol.clamped_idx := by
  obtain ⟨hxi, _, _, _, hloop⟩ := solve_ok_loop p H q lb ub xinit sol hok
  have hx0len : (project lb ub xinit).length = p.nx := by rw [project_length, hxi]
  exact boxQPLoop_pspec p H q lb ub p.maxiter 0 _ [] [] [] sol hx0len
    (fun h0 => absurd h0 (by omega)) hloop

unseal Rat.add Rat.mul Rat.inv Rat.sub in
/-- Witness for the amended C7 at a concrete two-iteration run ending clamped
at the upper bound. -/
theorem boxqp_C7_partition_witness :
    PartitionSpec 1 [0] [1]
      (BoxQPSolution.mk [1] [] [0] [[1/2]]).x
      (BoxQPSolution.mk [1] [] [0] [[1/2]]).free_idx
      (BoxQPSolution.mk [1] [] [0] [[1/2]]).clamped_idx :=
  boxqp_C7_partition ⟨1, 2, 1/10, 1/100, 0⟩ [[2]] [-4] [0] [1] [0]
    ⟨[1], [], [0], [[1/2]]⟩ (by decide) (by decide)

/-- C8.  If the Cholesky factorization of the regularized free-free block
fails, the iteration aborts with the fatal numerical-failure condition instead
of returning a solution, both in the iteration-0 convergence branch and in the
Newton-step branch, with no internal retry. -/
theorem boxqp_C8_chol_failure (p : BoxQPParams) (H : Mat) (q lb ub : Vec)
    (fuel k : ℕ) (x : Vec) (f c : List ℕ) (inv : Mat) :
    (infNorm (grad H q x) ≤ p.th_grad ∨ (freeIdxAt p.nx H q lb ub x).length = 0 →
      k = 0 → cholInv (HffReg p.reg H (freeIdxAt p.nx H q lb ub x)) = none →
      boxQPLoop p H q lb ub (fuel + 1) k x f c inv = .error .backwardError) ∧
    (¬(infNorm (grad H q x) ≤ p.th_grad ∨ (freeIdxAt p.nx H q lb ub x).length = 0) →
      cholInv (HffReg p.reg H (freeIdxAt p.nx H q lb ub x)) = none →
      boxQPLoop p H q lb ub (fuel + 1) k x f c inv = .error .backwardError) := by
  constructor
  · intro hconv hk hM
    simp only [boxQPLoop]
    rw [if_pos hconv, if_pos hk, hM]
  · intro hconv hM
    simp only [boxQPLoop]
    rw [if_neg hconv, hM]

unseal Rat.add Rat.mul Rat.inv Rat.sub in
/-- Witness for C8: a 1-dimensional indefinite Hessian with zero regularization
aborts both through the converged branch and the Newton-step branch. -/
theorem boxqp_C8_chol_failure_witness :
    boxQPLoop ⟨1, 1, 1/10, 1/100, 0⟩ [[-1]] [0] [-2] [2] 1 0 [0] [] [] [] =
      .error .backwardError ∧
    boxQPLoop ⟨1, 1, 1/10, 1/100, 0⟩ [[-1]] [0] [-2] [2] 1 0 [1] [] [] [] =
      .error .backwardError :=
  ⟨(boxqp_C8_chol_failure ⟨1, 1, 1/10, 1/100, 0⟩ [[-1]] [0] [-2] [2] 0 0 [0] [] [] []).1
      (by decide) rfl (by decide),
   (boxqp_C8_chol_failure ⟨1, 1, 1/10, 1/100, 0⟩ [[-1]] [0] [-2] [2] 0 0 [1] [] [] []).2
      (by decide) (by decide)⟩

end BoxQPModel
